import Mathlib

/-!
# Verification of the AirwayLabel post-processing stage

A shallow embedding of `src/tree_extraction/post_processing.py`: the rooted
tree that script mutates, its node-removal rules, and its recoloring passes,
together with theorems settling the frozen claims about them.

Modelling conventions, fixed once for the whole file:

* The graph is an `nx` tree rooted at the node with id `"0"`; we embed it as a
  rose tree (`NTree`/`Forest`), which bakes in the tree invariant the script
  asserts (`assert nx.is_tree(graph)`).  Node ids are strings as in graphml.
* Python floats become real numbers; `lobe` values are naturals
  (0 = unassigned, 1..5 = lobes); `group_sizes` is kept as the decoded ordered
  integer sequence, its graphml text being the single-space-separated
  rendering, so that `s.count(' ')` on the text of a sequence `l` is
  `l.length - 1` (and 0 for the empty text).
* Modelled from the spec: the persisted graph is a *directed* tree
  (spec section 6, "persisted directed tree graph"), hence `graph[node]`
  enumerates the node's children only; and `set_level` (defined in the
  missing `compose_tree` module) assigns each node its depth from the root
  (spec section 3, "level (integer depth from root)").
* Where a traversal iterates `graph.nodes()` in unspecified insertion order,
  we pin preorder, which the spec leaves open ("pin a deterministic iteration
  order").
-/

namespace Airway

/-- Per-node graphml attributes used by the script: coordinates and lobe. -/
structure NodeData where
  x : ℝ
  y : ℝ
  z : ℝ
  lobe : ℕ

/-- Per-edge graphml attributes used by the script: the edge weight and the
decoded `group_sizes` caliber-sample sequence. -/
structure EdgeData where
  weight : ℝ
  group_sizes : List ℤ

mutual
/-- The rooted tree the script mutates: a node id, its attributes, and the
forest of its children, each child carrying its incoming edge's data. -/
inductive NTree : Type where
  | node (id : String) (data : NodeData) (children : Forest)
/-- A list of children, each with the data of the edge from the parent. -/
inductive Forest : Type where
  | nil : Forest
  | cons (e : EdgeData) (t : NTree) (rest : Forest)
end

namespace NTree

/-- The id of a tree's root node. -/
def rootId : NTree → String
  | .node i _ _ => i

/-- The data of a tree's root node. -/
def rootData : NTree → NodeData
  | .node _ d _ => d

/-- The children forest of a tree's root node. -/
def rootChildren : NTree → Forest
  | .node _ _ c => c

end NTree

/-- `math.sqrt((fr.x-to.x)**2 + (fr.y-to.y)**2 + (fr.z-to.z)**2)`:
Pythagorean distance between two nodes (`distance` in the source). -/
noncomputable def dist3 (a b : NodeData) : ℝ :=
  Real.sqrt ((a.x - b.x) ^ 2 + (a.y - b.y) ^ 2 + (a.z - b.z) ^ 2)

/-- `math.sqrt(4 * area / math.pi)` (`calc_diameter` in the source). -/
noncomputable def calcDiameter (area : ℝ) : ℝ :=
  Real.sqrt (4 * area / Real.pi)

/-- `REMOVE_IF_GROUP_SIZE_LESS_THAN` from the source. -/
def removeIfGroupSizeLessThan : ℕ := 6

/-- The number of `' '` characters in the graphml text of a decoded
`group_sizes` sequence (single-space encoding): one less than its length. -/
def spaceCount (l : List ℤ) : ℕ := l.length - 1

mutual
/-- `nx.number_of_nodes`: the number of nodes of the tree. -/
def NTree.size : NTree → ℕ
  | .node _ _ c => 1 + c.size
/-- Total node count of a forest. -/
def Forest.size : Forest → ℕ
  | .nil => 0
  | .cons _ t rest => t.size + rest.size
end

mutual
/-- The ids of all nodes, in preorder. -/
def NTree.idList : NTree → List String
  | .node i _ c => i :: c.idList
/-- The ids of all nodes of a forest, in preorder. -/
def Forest.idList : Forest → List String
  | .nil => []
  | .cons _ t rest => t.idList ++ rest.idList
end

mutual
/-- The lobes of all nodes, in preorder. -/
def NTree.lobeList : NTree → List ℕ
  | .node _ d c => d.lobe :: c.lobeList
/-- The lobes of all nodes of a forest, in preorder. -/
def Forest.lobeList : Forest → List ℕ
  | .nil => []
  | .cons _ t rest => t.lobeList ++ rest.lobeList
end

mutual
/-- The multiset of non-zero lobes at and below a node, as a list: the
bottom-up aggregate `get_successor_lobes` computes.  The source stores each
node's dict (`all_successors[curr_node] = lobes`) and then adds the node's own
non-zero lobe to the same dict object, so the stored aggregate of a node
includes the node's own non-zero lobe once. -/
def NTree.lobeOccs : NTree → List ℕ
  | .node _ d c => c.lobeOccs ++ (if d.lobe ≠ 0 then [d.lobe] else [])
/-- Non-zero lobe occurrences of a forest. -/
def Forest.lobeOccs : Forest → List ℕ
  | .nil => []
  | .cons _ t rest => t.lobeOccs ++ rest.lobeOccs
end

/-- The set of distinct non-zero lobes at and below a node
(`get_successor_lobes(graph)` with `return_count=False`). -/
def NTree.lobeSet (t : NTree) : List ℕ := t.lobeOccs.dedup

/-- Whether a node has no children (`to not in has_successors` for
`has_successors` built from `nx.bfs_successors`). -/
def NTree.isLeaf : NTree → Bool
  | .node _ _ .nil => true
  | .node _ _ (.cons _ _ _) => false

/-- One row of the per-node view of a tree: the node's id, its depth from the
root, the data of its incoming edge (none for the root), and the subtree
rooted at it. -/
structure Info where
  id : String
  depth : ℕ
  edge : Option EdgeData
  sub : NTree

mutual
/-- The per-node rows of a tree, in preorder, with the given depth and
incoming edge for the root of this subtree. -/
def NTree.infosAt : ℕ → Option EdgeData → NTree → List Info
  | dep, e, .node i d c => ⟨i, dep, e, .node i d c⟩ :: c.infosAt (dep + 1)
/-- The per-node rows of the trees of a forest, at the given depth. -/
def Forest.infosAt : ℕ → Forest → List Info
  | _, .nil => []
  | dep, .cons e t rest => t.infosAt dep (some e) ++ rest.infosAt dep
end

/-- The per-node rows of a tree: root at depth 0 with no incoming edge. -/
def NTree.infos (t : NTree) : List Info := t.infosAt 0 none

/-- Whether a forest is empty. -/
def Forest.isNil : Forest → Bool
  | .nil => true
  | .cons _ _ _ => false

/-- Concatenation of two forests. -/
def Forest.append : Forest → Forest → Forest
  | .nil, g => g
  | .cons e t rest, g => .cons e t (rest.append g)

/-! ## Node removal rules (section "Functions for Removing Nodes") -/

mutual
/-- `remove_minor_edges`: in one scan of the tree, remove every node that has
no children and whose incoming edge's `group_sizes` text has fewer than
`REMOVE_IF_GROUP_SIZE_LESS_THAN` space characters
(`graph[fr][to]['group_sizes'].count(' ') < REMOVE_IF_GROUP_SIZE_LESS_THAN`).
The scan decides on the original tree; parents of removed leaves have
children, so are never themselves removed in the same scan. -/
def NTree.removeMinor : NTree → NTree
  | .node i d c => .node i d c.removeMinor
/-- `remove_minor_edges` on the children of a node. -/
def Forest.removeMinor : Forest → Forest
  | .nil => .nil
  | .cons e t rest =>
    if t.isLeaf ∧ spaceCount e.group_sizes < removeIfGroupSizeLessThan then
      rest.removeMinor
    else
      .cons e t.removeMinor rest.removeMinor
end

mutual
/-- `straighten_edges`: a node with exactly one child is merged into its
parent (`merge_edges`: the new edge gets weight `distance(parent, child)` and
the concatenated `group_sizes`) and removed.  The node `"0"` is in
`cant_be_removed` from the start, and the surviving child of a merge is added
to `cant_be_removed`, so it is not itself merged in the same pass. -/
noncomputable def NTree.straighten : NTree → NTree
  | .node i d c => .node i d (c.straighten d)
/-- `straighten_edges` on the children of a node with the given data. -/
noncomputable def Forest.straighten : Forest → NodeData → Forest
  | .nil, _ => .nil
  | .cons e (.node ci cd (.cons e2 (.node gi gd gc) .nil)) rest, pd =>
    if ci ≠ "0" then
      .cons ⟨dist3 pd gd, e.group_sizes ++ e2.group_sizes⟩
        (.node gi gd (gc.straighten gd)) (rest.straighten pd)
    else
      .cons e (.node ci cd ((Forest.cons e2 (.node gi gd gc) .nil).straighten cd))
        (rest.straighten pd)
  | .cons e (.node ci cd .nil) rest, pd =>
    .cons e (.node ci cd .nil) (rest.straighten pd)
  | .cons e (.node ci cd (.cons e2 g (.cons e3 g2 gr))) rest, pd =>
    .cons e (.node ci cd ((Forest.cons e2 g (.cons e3 g2 gr)).straighten cd))
      (rest.straighten pd)
end

/-- The test of `merge_close_nodes`:
`weight < calc_diameter(sum(nums) / len(nums)) * DIAMETER_TO_WEIGHT_RATIO`
with the constant 0.85, `nums` being the decoded `group_sizes`. -/
noncomputable def closeGuard (e : EdgeData) : Prop :=
  e.weight <
    calcDiameter ((e.group_sizes.sum : ℝ) / (e.group_sizes.length : ℝ)) * (85 / 100)

noncomputable instance : DecidablePred closeGuard :=
  fun _ => Classical.propDecidable _

mutual
/-- `merge_close_nodes`: for each edge in breadth-first order whose child is
not in `cant_be_removed` and satisfies `closeGuard`, merge each of the
child's outgoing edges with the incoming edge (`merge_edges`) and remove the
child; every pulled-up grandchild enters `cant_be_removed`, so it is not
itself merged in the same pass.  `cant_be_removed` starts as `{"0"}`. -/
noncomputable def NTree.mergeClose : NTree → NTree
  | .node i d c => .node i d (c.mergeClose d)
/-- `merge_close_nodes` on the children of a node with the given data. -/
noncomputable def Forest.mergeClose : Forest → NodeData → Forest
  | .nil, _ => .nil
  | .cons e (.node ci cd cc) rest, pd =>
    if ci ≠ "0" ∧ closeGuard e then
      (cc.liftMerged pd e).append (rest.mergeClose pd)
    else
      .cons e (.node ci cd (cc.mergeClose cd)) (rest.mergeClose pd)
/-- The children of a merged node, re-attached to the merged node's parent
(data `pd`, incoming edge `e`): each gets the `merge_edges` edge and is
protected from merging, while its own children are processed normally. -/
noncomputable def Forest.liftMerged : Forest → NodeData → EdgeData → Forest
  | .nil, _, _ => .nil
  | .cons e2 (.node gi gd gc) rest, pd, e =>
    .cons ⟨dist3 pd gd, e.group_sizes ++ e2.group_sizes⟩
      (.node gi gd (gc.mergeClose gd)) (rest.liftMerged pd e)
end

/-- `remove_children_without_children` on the children forest of a node at
depth `dep - 1`: a child at depth `dep ≤ 3` with no children is removed
(`nodes_to_check` is the set of nodes within three successor-expansions of
the root, i.e. at depth at most 3). -/
def Forest.prune3 : ℕ → Forest → Forest
  | _, .nil => .nil
  | dep, .cons e (.node ci cd cc) rest =>
    if dep ≤ 3 ∧ cc.isNil then
      Forest.prune3 dep rest
    else
      .cons e (.node ci cd (Forest.prune3 (dep + 1) cc)) (Forest.prune3 dep rest)

/-- `remove_children_without_children`: removes every node at depth at most 3
that has no children.  The root is in `nodes_to_check`; when it is childless
(the tree is the single root) it is removed and the graph becomes empty,
which we render as `none`. -/
def NTree.removeChildless : NTree → Option NTree
  | .node _ _ .nil => none
  | .node i d (.cons e t rest) => some (.node i d (Forest.prune3 1 (.cons e t rest)))

/-- The ids removed from a tree in preorder, as the difference of the two
id lists would show them; the empty graph has no ids. -/
def optIdList : Option NTree → List String
  | none => []
  | some t => t.idList


/-! ## Size bounds for the removal rules -/

mutual
theorem NTree.size_removeMinor_le : ∀ t : NTree, t.removeMinor.size ≤ t.size
  | .node i d c => by
      simpa [NTree.removeMinor, NTree.size] using
        Nat.add_le_add_left (Forest.size_removeMinor_le_f c) 1
theorem Forest.size_removeMinor_le_f : ∀ f : Forest, f.removeMinor.size ≤ f.size
  | .nil => Nat.le_refl _
  | .cons e t rest => by
      by_cases h : (t.isLeaf ∧ spaceCount e.group_sizes < removeIfGroupSizeLessThan)
      · simp only [Forest.removeMinor, if_pos h, Forest.size]
        exact le_trans (Forest.size_removeMinor_le_f rest) (Nat.le_add_left _ _)
      · simp only [Forest.removeMinor, if_neg h, Forest.size]
        exact Nat.add_le_add (NTree.size_removeMinor_le t) (Forest.size_removeMinor_le_f rest)
end

mutual
theorem NTree.size_straighten_le : ∀ t : NTree, t.straighten.size ≤ t.size
  | .node i d c => by
      simpa [NTree.straighten, NTree.size] using
        Nat.add_le_add_left (Forest.size_straighten_le_f c d) 1
theorem Forest.size_straighten_le_f : ∀ (f : Forest) (pd : NodeData), (f.straighten pd).size ≤ f.size
  | .nil, pd => Nat.le_refl _
  | .cons e (.node ci cd (.cons e2 (.node gi gd gc) .nil)) rest, pd => by
      have h1 : (gc.straighten gd).size ≤ gc.size := Forest.size_straighten_le_f gc gd
      have h2 : (rest.straighten pd).size ≤ rest.size := Forest.size_straighten_le_f rest pd
      have h3 : ((Forest.cons e2 (.node gi gd gc) .nil).straighten cd).size ≤
          (Forest.cons e2 (.node gi gd gc) .nil).size :=
        Forest.size_straighten_le_f (Forest.cons e2 (.node gi gd gc) .nil) cd
      by_cases h : ci ≠ "0"
      · simp only [Forest.straighten, if_pos h, Forest.size, NTree.size]
        omega
      · simp only [Forest.straighten, if_neg h, Forest.size, NTree.size]
        simp only [Forest.size, NTree.size] at h3
        omega
  | .cons e (.node ci cd .nil) rest, pd => by
      simp only [Forest.straighten, Forest.size, NTree.size]
      exact Nat.add_le_add_left (Forest.size_straighten_le_f rest pd) _
  | .cons e (.node ci cd (.cons e2 g (.cons e3 g2 gr))) rest, pd => by
      have h3 : ((Forest.cons e2 g (.cons e3 g2 gr)).straighten cd).size ≤
          (Forest.cons e2 g (.cons e3 g2 gr)).size :=
        Forest.size_straighten_le_f _ cd
      have h2 : (rest.straighten pd).size ≤ rest.size := Forest.size_straighten_le_f rest pd
      simp only [Forest.size, NTree.size] at h3
      simp only [Forest.straighten, Forest.size, NTree.size]
      omega
end

theorem Forest.size_append : ∀ f g : Forest, (f.append g).size = f.size + g.size
  | .nil, g => by simp [Forest.append, Forest.size]
  | .cons e t rest, g => by
      simp only [Forest.append, Forest.size, Forest.size_append rest g]
      omega

mutual
theorem NTree.size_mergeClose_le : ∀ t : NTree, t.mergeClose.size ≤ t.size
  | .node i d c => by
      simpa [NTree.mergeClose, NTree.size] using
        Nat.add_le_add_left (Forest.size_mergeClose_le_f c d) 1
theorem Forest.size_mergeClose_le_f : ∀ (f : Forest) (pd : NodeData), (f.mergeClose pd).size ≤ f.size
  | .nil, pd => Nat.le_refl _
  | .cons e (.node ci cd cc) rest, pd => by
      have h1 : (cc.liftMerged pd e).size ≤ cc.size := Forest.size_liftMerged_le cc pd e
      have h2 : (rest.mergeClose pd).size ≤ rest.size := Forest.size_mergeClose_le_f rest pd
      have h4 : (cc.mergeClose cd).size ≤ cc.size := Forest.size_mergeClose_le_f cc cd
      by_cases h : (ci ≠ "0" ∧ closeGuard e)
      · simp only [Forest.mergeClose, if_pos h, Forest.size, NTree.size, Forest.size_append]
        omega
      · simp only [Forest.mergeClose, if_neg h, Forest.size, NTree.size]
        omega
theorem Forest.size_liftMerged_le :
    ∀ (f : Forest) (pd : NodeData) (e : EdgeData), (f.liftMerged pd e).size ≤ f.size
  | .nil, pd, e => Nat.le_refl _
  | .cons e2 (.node gi gd gc) rest, pd, e => by
      have h1 : (gc.mergeClose gd).size ≤ gc.size := Forest.size_mergeClose_le_f gc gd
      have h2 : (rest.liftMerged pd e).size ≤ rest.size := Forest.size_liftMerged_le rest pd e
      simp only [Forest.liftMerged, Forest.size, NTree.size]
      omega
end

theorem Forest.size_prune3_le : ∀ (dep : ℕ) (f : Forest), (Forest.prune3 dep f).size ≤ f.size
  | _, .nil => Nat.le_refl _
  | dep, .cons e (.node ci cd cc) rest => by
      have h1 : (Forest.prune3 (dep + 1) cc).size ≤ cc.size := Forest.size_prune3_le _ cc
      have h2 : (Forest.prune3 dep rest).size ≤ rest.size := Forest.size_prune3_le _ rest
      by_cases h : (dep ≤ 3 ∧ cc.isNil)
      · simp only [Forest.prune3, if_pos h, Forest.size, NTree.size]
        omega
      · simp only [Forest.prune3, if_neg h, Forest.size, NTree.size]
        omega

theorem NTree.size_removeChildless_le :
    ∀ (t t2 : NTree), t.removeChildless = some t2 → t2.size ≤ t.size
  | .node i d .nil, t2, h => by simp [NTree.removeChildless] at h
  | .node i d (.cons e c rest), t2, h => by
      simp only [NTree.removeChildless, Option.some.injEq] at h
      subst h
      simpa [NTree.size] using
        Nat.add_le_add_left (Forest.size_prune3_le 1 (Forest.cons e c rest)) 1

/-! ## The node-removal fixed-point loop (the `while True` loop of `main`) -/

/-- One cycle of the `while True` loop of `main`: the four rules in their
fixed order.  `none` means the graph became empty (the childless root was
removed), in which case the next cycle's breadth-first traversal from the
missing root `"0"` raises and the run aborts. -/
noncomputable def cycleStep (t : NTree) : Option NTree :=
  t.removeMinor.straighten.mergeClose.removeChildless

theorem cycleStep_size_le {t t2 : NTree} (h : cycleStep t = some t2) : t2.size ≤ t.size := by
  calc t2.size ≤ t.removeMinor.straighten.mergeClose.size := NTree.size_removeChildless_le _ _ h
    _ ≤ t.removeMinor.straighten.size := NTree.size_mergeClose_le _
    _ ≤ t.removeMinor.size := NTree.size_straighten_le _
    _ ≤ t.size := NTree.size_removeMinor_le _

/-- The `while True` loop of `main`: run a cycle; stop when the node count is
unchanged (`if node_count == graph.number_of_nodes(): break`), else loop; a
cycle that empties the graph makes the next cycle raise (`none`). -/
noncomputable def removalLoop (t : NTree) : Option NTree :=
  match h : cycleStep t with
  | none => none
  | some t2 =>
    if h2 : t2.size = t.size then some t2
    else removalLoop t2
termination_by t.size
decreasing_by exact Nat.lt_of_le_of_ne (cycleStep_size_le h) h2

/-- `n` cycles of the loop, propagating the aborted run. -/
noncomputable def cycleIter : ℕ → NTree → Option NTree
  | 0, t => some t
  | n + 1, t =>
    match cycleStep t with
    | none => none
    | some t2 => cycleIter n t2

/-! ## Per-id queries on the tree -/

mutual
/-- The `lobe` attribute of the (first, in preorder) node with the given id;
ids are unique in a graphml tree, so the first match is the node. -/
def NTree.lobeOf : NTree → String → Option ℕ
  | .node i d c, v => if i = v then some d.lobe else c.lobeOf v
/-- `NTree.lobeOf` over a forest. -/
def Forest.lobeOf : Forest → String → Option ℕ
  | .nil, _ => none
  | .cons _ t rest, v =>
    match t.lobeOf v with
    | some l => some l
    | none => rest.lobeOf v
end

/-- The lobes of the roots of a forest, in order. -/
def Forest.topLobes : Forest → List ℕ
  | .nil => []
  | .cons _ t rest => t.rootData.lobe :: rest.topLobes

mutual
/-- The lobes of the children of the (first, in preorder) node with the given
id: what `{n[adj]['lobe'] for adj in graph[node]}` ranges over before
filtering, the persisted graph being directed so that `graph[node]` lists the
node's children. -/
def NTree.childLobes : NTree → String → Option (List ℕ)
  | .node i _ c, v => if i = v then some c.topLobes else c.childLobes v
/-- `NTree.childLobes` over a forest. -/
def Forest.childLobes : Forest → String → Option (List ℕ)
  | .nil, _ => none
  | .cons _ t rest, v =>
    match t.childLobes v with
    | some l => some l
    | none => rest.childLobes v
end

mutual
/-- `n[node]['lobe'] = l` for the node with the given id (every node carrying
the id, which under graphml's unique ids is the one node). -/
def NTree.setLobe : NTree → String → ℕ → NTree
  | .node i d c, v, l =>
    .node i (if i = v then { d with lobe := l } else d) (c.setLobe v l)
/-- `NTree.setLobe` over a forest. -/
def Forest.setLobe : Forest → String → ℕ → Forest
  | .nil, _, _ => .nil
  | .cons e t rest, v, l => .cons e (t.setLobe v l) (rest.setLobe v l)
end

mutual
/-- All (parent id, child id) pairs of the tree, in preorder. -/
def NTree.childPairs : NTree → List (String × String)
  | .node i _ c => Forest.pairsUnder i c
/-- The (parent, child) pairs contributed by a forest under the given parent. -/
def Forest.pairsUnder : String → Forest → List (String × String)
  | _, .nil => []
  | p, .cons _ t rest =>
    (p, t.rootId) :: (t.childPairs ++ Forest.pairsUnder p rest)
end

/-! ## The ids `merge_close_nodes` removes -/

mutual
/-- The ids of the nodes one `merge_close_nodes` pass removes
(`nodes_to_be_removed`): children failing `cant_be_removed` whose incoming
edge satisfies the guard; the children of a merged node are pulled up
protected, so only their own descendants are candidates again. -/
noncomputable def Forest.closeRemoved : Forest → List String
  | .nil => []
  | .cons e (.node ci cd cc) rest =>
    if ci ≠ "0" ∧ closeGuard e then
      ci :: (cc.closeRemovedProtected ++ rest.closeRemoved)
    else
      cc.closeRemoved ++ rest.closeRemoved
/-- Removed ids below the pulled-up (hence protected) children of a merged
node. -/
noncomputable def Forest.closeRemovedProtected : Forest → List String
  | .nil => []
  | .cons _ (.node _ _ gc) rest =>
    gc.closeRemoved ++ rest.closeRemovedProtected
end

/-- The ids one `merge_close_nodes` pass removes from a tree: the scan visits
edges only, so the root is never a candidate. -/
noncomputable def NTree.closeRemoved (t : NTree) : List String :=
  t.rootChildren.closeRemoved

/-! ## Recoloring passes -/

mutual
/-- `recolor_if_successors_all_different_color`: for each node with
`curr_lobe != 0`, when `len(successor_lobes) == 1 and curr_lobe not in
successor_lobes` assign `list(successor_lobes)[0]`; the per-node
`successor_lobes` set is the snapshot `get_successor_lobes(graph)` computed
on entry, which includes the node's own non-zero lobe. -/
def NTree.recolorSuccessors : NTree → NTree
  | .node i d c =>
    .node i
      (if d.lobe ≠ 0 ∧ (NTree.node i d c).lobeSet.length = 1 ∧
          d.lobe ∉ (NTree.node i d c).lobeSet then
        { d with lobe := (NTree.node i d c).lobeSet.headD 0 }
      else d)
      c.recolorSuccessors
/-- `recolor_if_successors_all_different_color` over a forest. -/
def Forest.recolorSuccessors : Forest → Forest
  | .nil => .nil
  | .cons e t rest => .cons e t.recolorSuccessors rest.recolorSuccessors
end

/-- `root_successors`: the per-lobe occurrence counts
`get_successor_lobes(graph, return_count=True)['0']` at the start of the
neighbor pass, as a total function (a lobe absent from the tree has count 0,
matching a key absent from the dict). -/
def initCounters (t : NTree) : ℕ → ℤ :=
  fun l => (t.lobeOccs.count l : ℤ)

/-- `d[k] += v` on a counter dict. -/
def bump (f : ℕ → ℤ) (k : ℕ) (v : ℤ) : ℕ → ℤ :=
  fun x => if x = k then f x + v else f x

/-- The body of `recolor_if_all_adjacent_have_different_color` for one node
`v`: on the running tree and counters, translated line by line —
`adjacent_lobes` is the set of non-zero lobes of `graph[v]` (the children, the
graph being directed); if it is one lobe different from `v`'s and
`root_successors[lobe(v)] > 1`, assign it; then
`root_successors[n[v]['lobe']] -= 1` — reading the lobe *after* the
assignment — and `root_successors[surrounding_lobe] += 1`. -/
def adjStep (st : NTree × (ℕ → ℤ)) (v : String) : NTree × (ℕ → ℤ) :=
  let curr := (st.1.lobeOf v).getD 0
  if curr ≠ 0 then
    let adjacentLobes := (((st.1.childLobes v).getD []).filter (· ≠ 0)).dedup
    if adjacentLobes.length = 1 then
      let surroundingLobe := adjacentLobes.headD 0
      if surroundingLobe ≠ curr then
        if 1 < st.2 curr then
          let t2 := st.1.setLobe v surroundingLobe
          let c2 := bump st.2 ((t2.lobeOf v).getD 0) (-1)
          let c3 := bump c2 surroundingLobe 1
          (t2, c3)
        else st
      else st
    else st
  else st

/-- `recolor_if_all_adjacent_have_different_color`: fold the per-node body
over the nodes (in preorder, standing in for `graph.nodes()` insertion
order), starting from the tree and the root-level counters; returns the
recolored tree and the final counters. -/
def recolorAdjacent (t : NTree) : NTree × (ℕ → ℤ) :=
  t.idList.foldl adjStep (t, initCounters t)

/-! ## The level 4/5 drastic recolor's gate -/

/-- The gate of `recolor_entire_subtree_to_majority_at_level_4_or_5` for one
node, from its per-node row: `1 < len(successor_lobes)` and, with
`exc = [4 in successor_lobes, 5 in successor_lobes]`,
`(n['level'] == 4 and not any(exc)) or (n['level'] == 5 and all(exc))`. -/
def drasticConsiders (i : Info) : Prop :=
  1 < i.sub.lobeSet.length ∧
    ((i.depth = 4 ∧ ¬(4 ∈ i.sub.lobeSet ∨ 5 ∈ i.sub.lobeSet)) ∨
      (i.depth = 5 ∧ (4 ∈ i.sub.lobeSet ∧ 5 ∈ i.sub.lobeSet)))

instance : DecidablePred drasticConsiders := fun i => by
  unfold drasticConsiders; infer_instance

/-- The gate as the claim words it: more than one distinct descendant lobe,
and depth 4, or depth 5 with the descendant lobes drawn only from the pair
{4, 5}. -/
def claimDrasticConsiders (i : Info) : Prop :=
  1 < i.sub.lobeSet.length ∧
    (i.depth = 4 ∨ (i.depth = 5 ∧ ∀ l ∈ i.sub.lobeSet, l = 4 ∨ l = 5))

instance : DecidablePred claimDrasticConsiders := fun i => by
  unfold claimDrasticConsiders; infer_instance

/-- The gate as the code has it, in plain terms: more than one distinct
descendant lobe, and either depth 4 with neither lobe 4 nor lobe 5 occurring
at or below the node, or depth 5 with both lobe 4 and lobe 5 occurring. -/
def amendedDrasticConsiders (i : Info) : Prop :=
  1 < i.sub.lobeSet.length ∧
    ((i.depth = 4 ∧ 4 ∉ i.sub.lobeSet ∧ 5 ∉ i.sub.lobeSet) ∨
      (i.depth = 5 ∧ 4 ∈ i.sub.lobeSet ∧ 5 ∈ i.sub.lobeSet))

instance : DecidablePred amendedDrasticConsiders := fun i => by
  unfold amendedDrasticConsiders; infer_instance

/-! ## `assign_children_count` -/

mutual
/-- The value `assign_children_count`'s recursion computes for a node: `count
= sum(successor_count(succ) for succ in successors[curr_node])`, each call
returning its own count plus one. -/
def NTree.scount : NTree → ℕ
  | .node _ _ c => c.scountSum
/-- The sum of `successor_count(succ)` return values over a forest. -/
def Forest.scountSum : Forest → ℕ
  | .nil => 0
  | .cons _ t rest => (t.scount + 1) + rest.scountSum
end

mutual
/-- The `(node, successor_count)` assignment `assign_children_count` writes
(`graph.nodes[node]["successor_count"] = count`), in preorder. -/
def NTree.scountList : NTree → List (String × ℕ)
  | .node i _ c => (i, c.scountSum) :: c.scountLists
/-- The `successor_count` assignments over a forest. -/
def Forest.scountLists : Forest → List (String × ℕ)
  | .nil => []
  | .cons _ t rest => t.scountList ++ rest.scountLists
end

/-! ## Concrete input trees for the claims -/

/-- A node attribute record at the origin with the given lobe. -/
def exData (l : ℕ) : NodeData := ⟨0, 0, 0, l⟩

/-- An edge attribute record of weight 1 with the given caliber samples. -/
def exEdge (gs : List ℤ) : EdgeData := ⟨1, gs⟩

/-- Root `"0"` with one child `"1"`: the leaf edge carries exactly 6 caliber
samples, so its graphml text has 5 space characters. -/
def minorSixTree : NTree :=
  .node "0" (exData 0)
    (.cons (exEdge [2, 2, 2, 2, 2, 2]) (.node "1" (exData 0) .nil) .nil)

/-- Root `"0"` of lobe 1 with a single child `"1"` of lobe 2: every strict
descendant of the root carries the one lobe 2 ≠ 1. -/
def subtreeBugTree : NTree :=
  .node "0" (exData 1) (.cons (exEdge [1]) (.node "1" (exData 2) .nil) .nil)

/-- Chain `"0"`(lobe 1) → `"1"`(lobe 1) → `"2"`(lobe 2): the neighbor pass
reassigns `"1"` to lobe 2 (its one child's lobe, its parent not being
consulted on the directed graph), with both occurrence counts 2 and 1. -/
def adjacentTree : NTree :=
  .node "0" (exData 1) (.cons (exEdge [1]) (.node "1" (exData 1)
    (.cons (exEdge [1]) (.node "2" (exData 2) .nil) .nil)) .nil)

/-- A chain `"0" → "a" → "b" → "c"` to depth 3 ending in node `"v"` at depth
4 whose two children carry lobes 1 and 4: more than one distinct descendant
lobe at depth 4, with lobe 4 among them. -/
def drasticTree : NTree :=
  .node "0" (exData 0) (.cons (exEdge [1]) (.node "a" (exData 0)
    (.cons (exEdge [1]) (.node "b" (exData 0)
      (.cons (exEdge [1]) (.node "c" (exData 0)
        (.cons (exEdge [1]) (.node "v" (exData 0)
          (.cons (exEdge [1]) (.node "w" (exData 1) .nil)
            (.cons (exEdge [1]) (.node "y" (exData 4) .nil) .nil))) .nil))
        .nil)) .nil)) .nil)

/-- The one-node tree: the root `"0"` alone. -/
def rootOnlyTree : NTree := .node "0" (exData 0) .nil

/-! ## Helper lemmas -/

theorem NTree.isLeaf_node (i : String) (d : NodeData) (c : Forest) :
    (NTree.node i d c).isLeaf = c.isNil := by
  cases c <;> rfl

theorem NTree.lobe_mem_lobeOccs (i : String) (d : NodeData) (c : Forest)
    (h : d.lobe ≠ 0) : d.lobe ∈ (NTree.node i d c).lobeOccs := by
  simp [NTree.lobeOccs, h]

theorem NTree.lobe_mem_lobeSet (i : String) (d : NodeData) (c : Forest)
    (h : d.lobe ≠ 0) : d.lobe ∈ (NTree.node i d c).lobeSet := by
  simpa [NTree.lobeSet, List.mem_dedup] using NTree.lobe_mem_lobeOccs i d c h

/-! ## C7: recomputed successor counts -/

mutual
theorem Forest.scountSum_eq_size : ∀ f : Forest, f.scountSum = f.size
  | .nil => rfl
  | .cons e t rest => by
      have h1 := NTree.scount_add_one t
      have h2 := Forest.scountSum_eq_size rest
      simp only [Forest.scountSum, Forest.size]
      omega
theorem NTree.scount_add_one : ∀ t : NTree, t.scount + 1 = t.size
  | .node i d c => by
      simp only [NTree.scount, NTree.size, Forest.scountSum_eq_size c]
      omega
end

mutual
theorem NTree.scountList_eq : ∀ (t : NTree) (dep : ℕ) (e : Option EdgeData),
    t.scountList = (t.infosAt dep e).map (fun i => (i.id, i.sub.size - 1))
  | .node i d c, dep, e => by
      simp only [NTree.scountList, NTree.infosAt, List.map_cons, NTree.size,
        Forest.scountSum_eq_size c, Forest.scountLists_eq c (dep + 1)]
      have h3 : 1 + c.size - 1 = c.size := by omega
      rw [h3]
theorem Forest.scountLists_eq : ∀ (f : Forest) (dep : ℕ),
    f.scountLists = (f.infosAt dep).map (fun i => (i.id, i.sub.size - 1))
  | .nil, _ => rfl
  | .cons e t rest, dep => by
      simp only [Forest.scountLists, Forest.infosAt, List.map_append,
        NTree.scountList_eq t dep (some e), Forest.scountLists_eq rest dep]
end

/-- C7: after `assign_children_count`, every node's `successor_count` is its
number of strict descendants (the node count of its subtree less one), and
the root's `successor_count` plus 1 is the total node count of the tree. -/
theorem claimC7_successorCounts (t : NTree) :
    t.scountList = t.infos.map (fun i => (i.id, i.sub.size - 1)) ∧
      t.scount + 1 = t.size :=
  ⟨NTree.scountList_eq t 0 none, NTree.scount_add_one t⟩

/-- C7 applied at a concrete tree. -/
theorem claimC7_successorCounts_example :
    adjacentTree.scountList =
        adjacentTree.infos.map (fun i => (i.id, i.sub.size - 1)) ∧
      adjacentTree.scount + 1 = adjacentTree.size :=
  claimC7_successorCounts adjacentTree

/-! ## C10: childless pruning in the first four layers -/

theorem Forest.prune3_idList : ∀ (dep : ℕ) (f : Forest),
    (Forest.prune3 dep f).idList =
      (f.infosAt dep).filterMap
        (fun i => if i.depth ≤ 3 ∧ i.sub.isLeaf then none else some i.id)
  | _, .nil => rfl
  | dep, .cons e (.node ci cd cc) rest => by
      have h1 := Forest.prune3_idList (dep + 1) cc
      have h2 := Forest.prune3_idList dep rest
      by_cases h : (dep ≤ 3 ∧ cc.isNil)
      · rcases h with ⟨hd, hn⟩
        cases cc with
        | cons e2 g gr => simp [Forest.isNil] at hn
        | nil =>
          simp [Forest.prune3, hd, Forest.isNil, h2, Forest.infosAt, NTree.infosAt,
            NTree.isLeaf, List.filterMap_cons, List.filterMap_append]
      · have hc : ¬(dep ≤ 3 ∧ (NTree.node ci cd cc).isLeaf = true) := by
          simpa [NTree.isLeaf_node] using h
        simp [Forest.prune3, h, hc, h1, h2, Forest.idList, NTree.idList,
          Forest.infosAt, NTree.infosAt, List.filterMap_cons, List.filterMap_append]

/-- C10: `remove_children_without_children` removes exactly the childless
nodes at depth at most 3 — root included: on the one-node tree it removes the
root, leaving the empty graph. -/
theorem claimC10_childlessPruning (t : NTree) :
    optIdList t.removeChildless =
        t.infos.filterMap
          (fun i => if i.depth ≤ 3 ∧ i.sub.isLeaf then none else some i.id) ∧
      rootOnlyTree.removeChildless = none := by
  refine ⟨?_, rfl⟩
  cases t with
  | node i d c =>
    cases c with
    | nil => simp [NTree.removeChildless, optIdList, NTree.infos, NTree.infosAt,
        Forest.infosAt, NTree.isLeaf]
    | cons e c2 rest =>
      have hc : ¬(0 ≤ 3 ∧ (NTree.node i d (Forest.cons e c2 rest)).isLeaf = true) := by
        simp [NTree.isLeaf]
      simp [NTree.removeChildless, optIdList, NTree.idList, NTree.infos,
        NTree.infosAt, List.filterMap_cons, hc, NTree.isLeaf,
        Forest.prune3_idList 1 (Forest.cons e c2 rest)]

/-- C10 applied at a concrete tree. -/
theorem claimC10_childlessPruning_example :
    optIdList adjacentTree.removeChildless =
        adjacentTree.infos.filterMap
          (fun i => if i.depth ≤ 3 ∧ i.sub.isLeaf then none else some i.id) ∧
      rootOnlyTree.removeChildless = none :=
  claimC10_childlessPruning adjacentTree

/-! ## C4: minor-edge removal threshold -/

/-- What one `remove_minor_edges` scan keeps of a node, per its row: the root
(no incoming edge) is never a candidate; a node with children is kept; a
childless node is kept exactly when its incoming edge's `group_sizes` text
has at least `REMOVE_IF_GROUP_SIZE_LESS_THAN` = 6 space characters, i.e. at
least 7 caliber samples. -/
def minorKeep (i : Info) : Option String :=
  match i.edge with
  | none => some i.id
  | some e =>
    if i.sub.isLeaf ∧ spaceCount e.group_sizes < removeIfGroupSizeLessThan then none
    else some i.id

theorem Forest.removeMinor_idList : ∀ (f : Forest) (dep : ℕ),
    f.removeMinor.idList = (f.infosAt dep).filterMap minorKeep
  | .nil, _ => rfl
  | .cons e (.node ti td tc) rest, dep => by
      have h1 := Forest.removeMinor_idList tc (dep + 1)
      have h2 := Forest.removeMinor_idList rest dep
      by_cases h : ((NTree.node ti td tc).isLeaf ∧
          spaceCount e.group_sizes < removeIfGroupSizeLessThan)
      · rcases h with ⟨hl, hs⟩
        cases tc with
        | cons e2 g gr => simp [NTree.isLeaf] at hl
        | nil =>
          simp [Forest.removeMinor, NTree.isLeaf, hs, h2, Forest.infosAt,
            NTree.infosAt, List.filterMap_cons, List.filterMap_append, minorKeep]
      · simp [Forest.removeMinor, h, h1, h2, Forest.idList, NTree.idList,
          NTree.removeMinor, Forest.infosAt, NTree.infosAt, List.filterMap_cons,
          List.filterMap_append, minorKeep]

/-- C4 corrected: one `remove_minor_edges` application removes exactly the
childless nodes whose incoming edge's `group_sizes` text has fewer than 6
space characters — that is, carries at most 6 (fewer than 7) caliber
samples.  In particular a leaf edge with exactly 6 samples (5 spaces) *is*
removed, see `claimC4_counterexample`. -/
theorem claimC4_minorEdges (t : NTree) :
    t.removeMinor.idList = t.infos.filterMap minorKeep := by
  cases t with
  | node i d c =>
    simp [NTree.removeMinor, NTree.idList, NTree.infos, NTree.infosAt,
      List.filterMap_cons, minorKeep, Forest.removeMinor_idList c 1]

/-- C4 counterexample to the claim as stated: in `minorSixTree` the leaf
`"1"`'s incoming edge carries exactly 6 caliber samples, and one
`remove_minor_edges` application removes it (6 samples make 5 < 6 spaces),
where the claim says a leaf with exactly 6 samples is kept. -/
theorem claimC4_counterexample :
    (exEdge [2, 2, 2, 2, 2, 2]).group_sizes.length = 6 ∧
      minorSixTree.removeMinor.idList = ["0"] := by decide

/-! ## C1: the subtree-majority pass is dead code -/

mutual
/-- `recolor_if_successors_all_different_color` changes nothing: the per-node
aggregate includes the node's own non-zero lobe, so `len(successor_lobes) ==
1 and curr_lobe not in successor_lobes` cannot hold for a non-neutral node. -/
theorem NTree.recolorSuccessors_eq : ∀ t : NTree, t.recolorSuccessors = t
  | .node i d c => by
      have hc := Forest.recolorSuccessors_eq_f c
      by_cases h : d.lobe ≠ 0
      · have hmem := NTree.lobe_mem_lobeSet i d c h
        simp [NTree.recolorSuccessors, hc, hmem]
      · simp [NTree.recolorSuccessors, hc, h]
/-- `recolor_if_successors_all_different_color` changes nothing on forests. -/
theorem Forest.recolorSuccessors_eq_f : ∀ f : Forest, f.recolorSuccessors = f
  | .nil => rfl
  | .cons e t rest => by
      simp [Forest.recolorSuccessors, NTree.recolorSuccessors_eq t,
        Forest.recolorSuccessors_eq_f rest]
end

/-- C1, at the failing input: in `subtreeBugTree` the root has lobe 1 and its
single strict descendant has lobe 2 — one distinct descendant lobe differing
from the root's — yet `recolor_if_successors_all_different_color` leaves all
lobes unchanged (its aggregate for the root is {1, 2}, the root's own lobe
included, so the reassignment condition cannot fire). -/
theorem claimC1_deadPass :
    subtreeBugTree.lobeList = [1, 2] ∧
      subtreeBugTree.recolorSuccessors.lobeList = [1, 2] ∧
      subtreeBugTree.lobeSet = [2, 1] := by decide

/-! ## C5: the gate of the drastic subtree recolor -/

/-- C5 counterexample to the claim as stated: in `drasticTree`, node `"v"`
sits at depth 4 with the two distinct descendant lobes {1, 4}; the claim's
gate selects exactly `"v"`, but the pass's own gate (which at depth 4 also
requires neither lobe 4 nor lobe 5 below) selects no node at all, so `"v"`
is not considered. -/
theorem claimC5_counterexample :
    ((drasticTree.infos.filter fun i => decide (claimDrasticConsiders i)).map Info.id)
        = ["v"] ∧
      ((drasticTree.infos.filter fun i => decide (drasticConsiders i)).map Info.id)
        = [] := by decide

theorem drasticConsiders_iff_amended (i : Info) :
    drasticConsiders i ↔ amendedDrasticConsiders i := by
  unfold drasticConsiders amendedDrasticConsiders
  tauto

/-- C5 corrected: the drastic subtree recolor considers a node exactly when
it has more than one distinct descendant lobe and either sits at depth 4
with neither lobe 4 nor lobe 5 occurring at or below it, or sits at depth 5
with both lobe 4 and lobe 5 occurring at or below it: on every tree the
pass's gate selects exactly the rows the amended wording selects, and the
two gates agree on every row. -/
theorem claimC5_drasticGate (t : NTree) (i : Info) :
    (t.infos.filter fun j => decide (drasticConsiders j)) =
        (t.infos.filter fun j => decide (amendedDrasticConsiders j)) ∧
      (drasticConsiders i ↔ amendedDrasticConsiders i) := by
  refine ⟨List.filter_congr fun j _ => ?_, drasticConsiders_iff_amended i⟩
  simp [drasticConsiders_iff_amended j]

/-! ## C2: the root-level occurrence counters of the neighbor pass -/

/-- C2, at the failing input: in `adjacentTree` (lobes 1, 1, 2 along the
chain), the pass reassigns node `"1"` from lobe 1 to the surrounding lobe 2,
but the maintained counters still read 2 for lobe 1 and 1 for lobe 2 — the
code decrements `root_successors[n[node]['lobe']]` *after* overwriting the
node's lobe, so the decrement and the increment both hit lobe 2 and cancel —
while the mutated tree's actual occurrence counts are 1 and 2. -/
theorem claimC2_counterDrift :
    adjacentTree.lobeOf "1" = some 1 ∧
      (recolorAdjacent adjacentTree).1.lobeOf "1" = some 2 ∧
      (recolorAdjacent adjacentTree).2 1 = 2 ∧
      (recolorAdjacent adjacentTree).2 2 = 1 ∧
      ((recolorAdjacent adjacentTree).1.lobeOccs.count 1 : ℤ) = 1 ∧
      ((recolorAdjacent adjacentTree).1.lobeOccs.count 2 : ℤ) = 2 := by decide

/-! ## C8: straightening a chain to fixpoint -/

/-- Straightening iterated to fixpoint with the loop's own stop test: run a
pass, stop when the node count is unchanged, else run again. -/
noncomputable def straightenFix (t : NTree) : NTree :=
  let t2 := t.straighten
  if h : t2.size = t.size then t2 else straightenFix t2
termination_by t.size
decreasing_by exact Nat.lt_of_le_of_ne (NTree.size_straighten_le t) h

/-- C8: on the chain root → A → B → C (A and B each with exactly one child),
straightening iterated to fixpoint yields the tree root → C whose single edge
has weight `distance(root, C)` and whose `group_sizes` is the in-order
concatenation of the three original edges' samples, nodes A and B removed:
the first pass merges A (protecting B), the second merges B, the third
changes nothing. -/
theorem claimC8_straightenChain (d0 dA dB dC : NodeData) (e1 e2 e3 : EdgeData) :
    straightenFix (.node "0" d0 (.cons e1 (.node "A" dA (.cons e2 (.node "B" dB
        (.cons e3 (.node "C" dC .nil) .nil)) .nil)) .nil)) =
      .node "0" d0 (.cons ⟨dist3 d0 dC, e1.group_sizes ++ e2.group_sizes ++ e3.group_sizes⟩
        (.node "C" dC .nil) .nil) := by
  have hA : ("A" : String) ≠ "0" := by decide
  have hB : ("B" : String) ≠ "0" := by decide
  rw [straightenFix]
  simp only [NTree.straighten, Forest.straighten, NTree.size, Forest.size, ne_eq, hA, hB,
    not_false_iff, if_true, reduceIte]
  rw [dif_neg (by decide)]
  rw [straightenFix]
  simp only [NTree.straighten, Forest.straighten, NTree.size, Forest.size, ne_eq, hA, hB,
    not_false_iff, if_true, reduceIte]
  rw [dif_neg (by decide)]
  rw [straightenFix]
  simp only [NTree.straighten, Forest.straighten, NTree.size, Forest.size, ne_eq, hA, hB,
    not_false_iff, if_true, reduceIte]
  rw [dif_pos (by decide)]



/-! ## C6: termination of the removal fixed-point loop -/

theorem NTree.size_pos (t : NTree) : 0 < t.size := by
  cases t with
  | node i d c => simp [NTree.size]

theorem cycleIter_succ {t t2 : NTree} (h : cycleStep t = some t2) (j : ℕ) :
    cycleIter (j + 1) t = cycleIter j t2 := by
  simp [cycleIter, h]

theorem cycleIter_succ_none {t : NTree} (h : cycleStep t = none) (j : ℕ) :
    cycleIter (j + 1) t = none := by
  simp [cycleIter, h]

theorem removalLoop_halts : ∀ (n : ℕ) (t : NTree), t.size ≤ n → ∃ k : ℕ,
    (∀ j, j < k → ∃ u u2 : NTree,
        cycleIter j t = some u ∧ cycleIter (j + 1) t = some u2 ∧ u2.size < u.size) ∧
      ((∃ u u2 : NTree, cycleIter k t = some u ∧ cycleIter (k + 1) t = some u2 ∧
          u2.size = u.size ∧ removalLoop t = some u2) ∨
        (cycleIter (k + 1) t = none ∧ removalLoop t = none)) := by
  intro n
  induction n with
  | zero => intro t ht; exact absurd (Nat.lt_of_lt_of_le t.size_pos ht) (lt_irrefl 0)
  | succ n ih =>
    intro t ht
    cases hc : cycleStep t with
    | none =>
      refine ⟨0, by omega, Or.inr ⟨cycleIter_succ_none hc 0, ?_⟩⟩
      rw [removalLoop]
      split <;> simp_all
    | some t2 =>
      by_cases he : t2.size = t.size
      · refine ⟨0, by omega, Or.inl ⟨t, t2, rfl, ?_, he, ?_⟩⟩
        · rw [cycleIter_succ hc 0]; rfl
        · rw [removalLoop]; split <;> simp_all
      · have hlt : t2.size < t.size := Nat.lt_of_le_of_ne (cycleStep_size_le hc) he
        obtain ⟨k, hk1, hk2⟩ := ih t2 (by omega)
        have hloop : removalLoop t = removalLoop t2 := by
          conv_lhs => rw [removalLoop]
          split <;> simp_all
        refine ⟨k + 1, ?_, ?_⟩
        · intro j hj
          cases j with
          | zero => exact ⟨t, t2, rfl, by rw [cycleIter_succ hc 0]; rfl, hlt⟩
          | succ j =>
            obtain ⟨u, u2, h1, h2, h3⟩ := hk1 j (by omega)
            exact ⟨u, u2, by rw [cycleIter_succ hc j]; exact h1,
              by rw [cycleIter_succ hc (j + 1)]; exact h2, h3⟩
        · rcases hk2 with ⟨u, u2, h1, h2, h3, h4⟩ | ⟨h1, h2⟩
          · exact Or.inl ⟨u, u2, by rw [cycleIter_succ hc k]; exact h1,
              by rw [cycleIter_succ hc (k + 1)]; exact h2, h3, by rw [hloop]; exact h4⟩
          · exact Or.inr ⟨by rw [cycleIter_succ hc (k + 1)]; exact h1,
              by rw [hloop]; exact h2⟩

/-- C6 counterexample to the claim as stated: on the one-node tree the first
cycle removes the childless root, so the run aborts (`none`) — the loop never
reaches a cycle whose net node count is unchanged. -/
theorem claimC6_counterexample :
    removalLoop rootOnlyTree = none ∧ cycleIter 1 rootOnlyTree = none := by
  have hc : cycleStep rootOnlyTree = none := by
    simp [cycleStep, rootOnlyTree, NTree.removeMinor, Forest.removeMinor,
      NTree.straighten, Forest.straighten, NTree.mergeClose, Forest.mergeClose,
      NTree.removeChildless]
  refine ⟨?_, cycleIter_succ_none hc 0⟩
  rw [removalLoop]
  split <;> simp_all

/-- C6 corrected: node count never increases over a cycle of the four rules,
and for every finite tree the loop terminates — either it halts at the first
cycle whose net node count is unchanged (all earlier cycles having strictly
decreased it), or some cycle empties the graph and the run aborts. -/
theorem claimC6_removalLoop (t : NTree) :
    (∀ u u2 : NTree, cycleStep u = some u2 → u2.size ≤ u.size) ∧
      ∃ k : ℕ,
        (∀ j, j < k → ∃ u u2 : NTree,
            cycleIter j t = some u ∧ cycleIter (j + 1) t = some u2 ∧ u2.size < u.size) ∧
          ((∃ u u2 : NTree, cycleIter k t = some u ∧ cycleIter (k + 1) t = some u2 ∧
              u2.size = u.size ∧ removalLoop t = some u2) ∨
            (cycleIter (k + 1) t = none ∧ removalLoop t = none)) :=
  ⟨fun _ _ h => cycleStep_size_le h, removalLoop_halts t.size t (Nat.le_refl _)⟩

/-! ## C3: when the neighbor pass reassigns a node -/

mutual
/-- The lobe of the parent of the (first, in preorder) node with the given
id; `none` for the root or an absent id. -/
def NTree.parentLobe : NTree → String → Option ℕ
  | .node _ d c, v => Forest.parentLobe c d v
/-- `NTree.parentLobe` over a forest whose parent has the given data. -/
def Forest.parentLobe : Forest → NodeData → String → Option ℕ
  | .nil, _, _ => none
  | .cons _ (.node ci cd cc) rest, pd, v =>
    if ci = v then some pd.lobe
    else
      match Forest.parentLobe cc cd v with
      | some l => some l
      | none => Forest.parentLobe rest pd v
end

/-- The lobes of the claim's "direct neighbors" of a node: its parent
together with its children. -/
def neighborLobes (t : NTree) (v : String) : List ℕ :=
  (match t.parentLobe v with
    | some l => [l]
    | none => []) ++ (t.childLobes v).getD []

/-- The claim's reassignment condition, read on the pass's input tree: the
node is non-neutral, all of its non-neutral direct neighbors — parent
together with children — share one single lobe different from the node's
own, and the node's current lobe has more than one occurrence at the root
level. -/
def claimC3Cond (t : NTree) (v : String) : Prop :=
  (t.lobeOf v).getD 0 ≠ 0 ∧
    (((neighborLobes t v).filter (· ≠ 0)).dedup).length = 1 ∧
    (((neighborLobes t v).filter (· ≠ 0)).dedup).headD 0 ≠ (t.lobeOf v).getD 0 ∧
    1 < t.lobeOccs.count ((t.lobeOf v).getD 0)

instance : ∀ t v, Decidable (claimC3Cond t v) := fun t v => by
  unfold claimC3Cond; infer_instance

/-- The reassignment condition the code actually applies at a node's turn,
on the running tree `tc` and counters `cnt`: non-neutral; the non-neutral
*children* (the directed graph's adjacency) share one single lobe different
from the node's own; and the maintained counter of the node's lobe exceeds
1. -/
def adjRecolorCond (tc : NTree) (cnt : ℕ → ℤ) (v : String) : Prop :=
  (tc.lobeOf v).getD 0 ≠ 0 ∧
    ((((tc.childLobes v).getD []).filter (· ≠ 0)).dedup).length = 1 ∧
    ((((tc.childLobes v).getD []).filter (· ≠ 0)).dedup).headD 0 ≠ (tc.lobeOf v).getD 0 ∧
    1 < cnt ((tc.lobeOf v).getD 0)

instance : ∀ tc cnt v, Decidable (adjRecolorCond tc cnt v) := fun tc cnt v => by
  unfold adjRecolorCond; infer_instance

mutual
theorem NTree.lobeOf_setLobe_self : ∀ (t : NTree) (v : String) (l : ℕ),
    (t.setLobe v l).lobeOf v = (t.lobeOf v).map fun _ => l
  | .node i d c, v, l => by
      by_cases h : i = v
      · simp [NTree.setLobe, NTree.lobeOf, h]
      · simp [NTree.setLobe, NTree.lobeOf, h, Forest.lobeOf_setLobe_self_f c v l]
theorem Forest.lobeOf_setLobe_self_f : ∀ (f : Forest) (v : String) (l : ℕ),
    (f.setLobe v l).lobeOf v = (f.lobeOf v).map fun _ => l
  | .nil, _, _ => rfl
  | .cons e t rest, v, l => by
      have h1 := NTree.lobeOf_setLobe_self t v l
      have h2 := Forest.lobeOf_setLobe_self_f rest v l
      simp only [Forest.setLobe, Forest.lobeOf, h1, h2]
      cases t.lobeOf v <;> simp
end

mutual
theorem NTree.lobeOf_setLobe_ne : ∀ (t : NTree) (u v : String) (l : ℕ), u ≠ v →
    (t.setLobe u l).lobeOf v = t.lobeOf v
  | .node i d c, u, v, l, h => by
      by_cases hi : i = v
      · have hvu : v ≠ u := Ne.symm h
        simp [NTree.setLobe, NTree.lobeOf, hi, hvu]
      · by_cases hu : i = u
        · simp [NTree.setLobe, NTree.lobeOf, hi, hu, h,
            Forest.lobeOf_setLobe_ne_f c u v l h]
        · simp [NTree.setLobe, NTree.lobeOf, hi, hu,
            Forest.lobeOf_setLobe_ne_f c u v l h]
theorem Forest.lobeOf_setLobe_ne_f : ∀ (f : Forest) (u v : String) (l : ℕ), u ≠ v →
    (f.setLobe u l).lobeOf v = f.lobeOf v
  | .nil, _, _, _, _ => rfl
  | .cons e t rest, u, v, l, h => by
      simp only [Forest.setLobe, Forest.lobeOf, NTree.lobeOf_setLobe_ne t u v l h,
        Forest.lobeOf_setLobe_ne_f rest u v l h]
end

theorem bump_bump_cancel (f : ℕ → ℤ) (s : ℕ) : bump (bump f s (-1)) s 1 = f := by
  funext x
  by_cases hx : x = s <;> simp [bump, hx]

theorem NTree.setLobe_lobeOf_getD (t : NTree) (v : String) {s : ℕ}
    (h : (t.lobeOf v).getD 0 ≠ 0) : ((t.setLobe v s).lobeOf v).getD 0 = s := by
  cases hl : t.lobeOf v with
  | none => rw [hl] at h; simp at h
  | some l => rw [NTree.lobeOf_setLobe_self, hl]; rfl

/-- The two counter updates of a reassignment cancel: the decrement reads the
node's lobe after the assignment, so both hit the surrounding lobe and the
counters of the neighbor pass never change. -/
theorem adjStep_counters (st : NTree × (ℕ → ℤ)) (v : String) : (adjStep st v).2 = st.2 := by
  simp only [adjStep]
  split_ifs with h0 h1 h2 h3
  · dsimp only
    rw [NTree.setLobe_lobeOf_getD st.1 v h0, bump_bump_cancel]
  all_goals rfl

theorem adjStep_lobeOf_ne (st : NTree × (ℕ → ℤ)) (u v : String) (h : u ≠ v) :
    ((adjStep st u).1).lobeOf v = st.1.lobeOf v := by
  simp only [adjStep]
  split_ifs with h0 h1 h2 h3
  · exact NTree.lobeOf_setLobe_ne st.1 u v _ h
  all_goals rfl

theorem foldl_adjStep_counters (l : List String) (st : NTree × (ℕ → ℤ)) :
    (l.foldl adjStep st).2 = st.2 := by
  induction l generalizing st with
  | nil => rfl
  | cons u rest ih => rw [List.foldl_cons, ih (adjStep st u), adjStep_counters]

theorem foldl_adjStep_lobeOf (l : List String) (st : NTree × (ℕ → ℤ)) (v : String)
    (hv : v ∉ l) : ((l.foldl adjStep st).1).lobeOf v = st.1.lobeOf v := by
  induction l generalizing st with
  | nil => rfl
  | cons u rest ih =>
    simp only [List.mem_cons, not_or] at hv
    rw [List.foldl_cons, ih (adjStep st u) hv.2,
      adjStep_lobeOf_ne st u v (Ne.symm hv.1)]

theorem adjStep_lobeOf_self (st : NTree × (ℕ → ℤ)) (v : String) :
    ((adjStep st v).1).lobeOf v =
      if adjRecolorCond st.1 st.2 v then
        some ((((st.1.childLobes v).getD []).filter (· ≠ 0)).dedup.headD 0)
      else st.1.lobeOf v := by
  by_cases hc : adjRecolorCond st.1 st.2 v
  · rw [if_pos hc]
    obtain ⟨h0, h1, h2, h3⟩ := hc
    have hsome : st.1.lobeOf v = some ((st.1.lobeOf v).getD 0) := by
      cases hl : st.1.lobeOf v with
      | none => rw [hl] at h0; simp at h0
      | some l => simp
    simp only [adjStep]
    split_ifs
    dsimp only
    rw [NTree.lobeOf_setLobe_self, hsome]
    rfl
  · rw [if_neg hc]
    simp only [adjStep]
    split_ifs with g0 g1 g2 g3
    · exact absurd ⟨g0, g1, g2, g3⟩ hc
    all_goals rfl

/-- C3 counterexample to the claim as stated: in `adjacentTree` the pass
reassigns node `"1"` from lobe 1 to 2, although the claim's condition fails
there — the non-neutral direct neighbors, parent `"0"` (lobe 1) together
with child `"2"` (lobe 2), do not share one single lobe.  Only the children
are consulted: `graph[node]` on the directed graph lists no parent. -/
theorem claimC3_counterexample :
    adjacentTree.lobeOf "1" = some 1 ∧
      (recolorAdjacent adjacentTree).1.lobeOf "1" = some 2 ∧
      ¬claimC3Cond adjacentTree "1" := by decide

/-- C3 corrected: a node `v` (splitting the iteration order as `l1 ++ v ::
l2`) keeps the counters of the pass entry at its turn, its own lobe is still
its input lobe at its turn, and it is reassigned exactly when, at its turn,
all of its non-neutral *children* share one single lobe different from its
own and the maintained (pass-entry) counter of its lobe exceeds 1 — in which
case it takes that children's lobe, and otherwise keeps its input lobe. -/
theorem claimC3_neighborPass (t : NTree) (l1 l2 : List String) (v : String)
    (hsplit : t.idList = l1 ++ v :: l2) (h1 : v ∉ l1) (h2 : v ∉ l2) :
    (l1.foldl adjStep (t, initCounters t)).2 = initCounters t ∧
      (l1.foldl adjStep (t, initCounters t)).1.lobeOf v = t.lobeOf v ∧
      (recolorAdjacent t).1.lobeOf v =
        (if adjRecolorCond (l1.foldl adjStep (t, initCounters t)).1
              (l1.foldl adjStep (t, initCounters t)).2 v then
          some (((((l1.foldl adjStep (t, initCounters t)).1.childLobes v).getD []).filter
              (· ≠ 0)).dedup.headD 0)
        else t.lobeOf v) := by
  have hcnt := foldl_adjStep_counters l1 (t, initCounters t)
  have hlv := foldl_adjStep_lobeOf l1 (t, initCounters t) v h1
  refine ⟨hcnt, hlv, ?_⟩
  unfold recolorAdjacent
  rw [hsplit, List.foldl_append, List.foldl_cons,
    foldl_adjStep_lobeOf l2 _ v h2, adjStep_lobeOf_self, hlv]

/-- C3's amended statement applied at `adjacentTree` with `v = "1"`,
`l1 = ["0"]`, `l2 = ["2"]`. -/
theorem claimC3_neighborPass_witness :
    (["0"].foldl adjStep (adjacentTree, initCounters adjacentTree)).2 =
        initCounters adjacentTree ∧
      (["0"].foldl adjStep (adjacentTree, initCounters adjacentTree)).1.lobeOf "1" =
        adjacentTree.lobeOf "1" ∧
      (recolorAdjacent adjacentTree).1.lobeOf "1" =
        (if adjRecolorCond (["0"].foldl adjStep (adjacentTree, initCounters adjacentTree)).1
              (["0"].foldl adjStep (adjacentTree, initCounters adjacentTree)).2 "1" then
          some ((((((["0"].foldl adjStep
                (adjacentTree, initCounters adjacentTree)).1.childLobes "1").getD
              []).filter (· ≠ 0)).dedup).headD 0)
        else adjacentTree.lobeOf "1") :=
  claimC3_neighborPass adjacentTree ["0"] ["2"] "1" (by decide) (by decide) (by decide)

/-! ## C9: what one `merge_close_nodes` pass may remove -/

/-- The (parent, child) pairs lying inside the trees of a forest (not
involving the forest's own parent). -/
def Forest.treePairs : Forest → List (String × String)
  | .nil => []
  | .cons _ u rest => u.childPairs ++ rest.treePairs

/-- The ids of the roots of a forest's trees. -/
def Forest.rootIdsF : Forest → List String
  | .nil => []
  | .cons _ u rest => u.rootId :: rest.rootIdsF

theorem Forest.mem_pairsUnder {p c : String} : ∀ (q : String) (f : Forest),
    (p, c) ∈ Forest.pairsUnder q f ↔
      ((p = q ∧ c ∈ f.rootIdsF) ∨ (p, c) ∈ f.treePairs)
  | q, .nil => by simp [Forest.pairsUnder, Forest.treePairs, Forest.rootIdsF]
  | q, .cons e u rest => by
      simp only [Forest.pairsUnder, Forest.treePairs, Forest.rootIdsF,
        List.mem_cons, List.mem_append, Forest.mem_pairsUnder q rest,
        Prod.mk.injEq]
      tauto

theorem Forest.rootIdsF_subset : ∀ (f : Forest) (x : String),
    x ∈ f.rootIdsF → x ∈ f.idList
  | .cons e (.node i2 d2 c2) rest, x, h => by
      rcases List.mem_cons.mp h with h1 | h2
      · simp [Forest.idList, NTree.idList, NTree.rootId] at h1 ⊢
        tauto
      · simp only [Forest.idList, List.mem_append]
        exact Or.inr (Forest.rootIdsF_subset rest x h2)

mutual
theorem NTree.mem_childPairs_ids : ∀ (t : NTree) (p c : String),
    (p, c) ∈ t.childPairs → p ∈ t.idList ∧ c ∈ t.idList
  | .node i d cT, p, c, h => by
      simp only [NTree.childPairs] at h
      rcases (Forest.mem_pairsUnder i cT).mp h with ⟨hp, hc⟩ | hf
      · subst hp
        exact ⟨by simp [NTree.idList],
          by simp only [NTree.idList, List.mem_cons]
             exact Or.inr (Forest.rootIdsF_subset cT c hc)⟩
      · have h2 := Forest.mem_treePairs_ids cT p c hf
        exact ⟨by simp only [NTree.idList, List.mem_cons]; exact Or.inr h2.1,
          by simp only [NTree.idList, List.mem_cons]; exact Or.inr h2.2⟩
theorem Forest.mem_treePairs_ids : ∀ (f : Forest) (p c : String),
    (p, c) ∈ f.treePairs → p ∈ f.idList ∧ c ∈ f.idList
  | .cons e u rest, p, c, h => by
      simp only [Forest.treePairs, List.mem_append] at h
      simp only [Forest.idList, List.mem_append]
      rcases h with h1 | h2
      · have h3 := NTree.mem_childPairs_ids u p c h1
        exact ⟨Or.inl h3.1, Or.inl h3.2⟩
      · have h3 := Forest.mem_treePairs_ids rest p c h2
        exact ⟨Or.inr h3.1, Or.inr h3.2⟩
end

mutual
theorem Forest.closeRemoved_subset : ∀ (f : Forest) (x : String),
    x ∈ f.closeRemoved → x ∈ f.idList
  | .cons e (.node ci cd cc) rest, x, h => by
      simp only [Forest.idList, NTree.idList, List.mem_append, List.mem_cons]
      by_cases hg : (ci ≠ "0" ∧ closeGuard e)
      · simp only [Forest.closeRemoved, if_pos hg, List.mem_cons,
          List.mem_append] at h
        rcases h with h1 | h2 | h3
        · exact Or.inl (Or.inl h1)
        · exact Or.inl (Or.inr (Forest.closeRemovedProtected_subset cc x h2))
        · exact Or.inr (Forest.closeRemoved_subset rest x h3)
      · simp only [Forest.closeRemoved, if_neg hg, List.mem_append] at h
        rcases h with h1 | h2
        · exact Or.inl (Or.inr (Forest.closeRemoved_subset cc x h1))
        · exact Or.inr (Forest.closeRemoved_subset rest x h2)
theorem Forest.closeRemovedProtected_subset : ∀ (f : Forest) (x : String),
    x ∈ f.closeRemovedProtected → x ∈ f.idList
  | .cons e2 (.node gi gd gc) rest, x, h => by
      simp only [Forest.closeRemovedProtected, List.mem_append] at h
      simp only [Forest.idList, NTree.idList, List.mem_append, List.mem_cons]
      rcases h with h1 | h2
      · exact Or.inl (Or.inr (Forest.closeRemoved_subset gc x h1))
      · exact Or.inr (Forest.closeRemovedProtected_subset rest x h2)
end

mutual
theorem Forest.zero_not_mem_closeRemoved : ∀ f : Forest, "0" ∉ f.closeRemoved
  | .nil => by simp [Forest.closeRemoved]
  | .cons e (.node ci cd cc) rest => by
      by_cases hg : (ci ≠ "0" ∧ closeGuard e)
      · simp only [Forest.closeRemoved, if_pos hg, List.mem_cons, List.mem_append]
        intro h
        rcases h with h1 | h2 | h3
        · exact hg.1 h1.symm
        · exact Forest.zero_not_mem_closeRemovedProtected cc h2
        · exact Forest.zero_not_mem_closeRemoved rest h3
      · simp only [Forest.closeRemoved, if_neg hg, List.mem_append]
        intro h
        rcases h with h1 | h2
        · exact Forest.zero_not_mem_closeRemoved cc h1
        · exact Forest.zero_not_mem_closeRemoved rest h2
theorem Forest.zero_not_mem_closeRemovedProtected : ∀ f : Forest,
    "0" ∉ f.closeRemovedProtected
  | .nil => by simp [Forest.closeRemovedProtected]
  | .cons e2 (.node gi gd gc) rest => by
      simp only [Forest.closeRemovedProtected, List.mem_append]
      intro h
      rcases h with h1 | h2
      · exact Forest.zero_not_mem_closeRemoved gc h1
      · exact Forest.zero_not_mem_closeRemovedProtected rest h2
end

theorem Forest.rootIds_not_mem_protected : ∀ (f : Forest), f.idList.Nodup →
    ∀ r, r ∈ f.rootIdsF → r ∉ f.closeRemovedProtected
  | .cons e2 (.node gi gd gc) rest, hn, r, hr => by
      have hn2 : ((gi :: gc.idList) ++ rest.idList).Nodup := by
        simpa [Forest.idList, NTree.idList] using hn
      rw [List.nodup_append] at hn2
      obtain ⟨hnl, hnr, hdisj⟩ := hn2
      rw [List.nodup_cons] at hnl
      obtain ⟨hgi, hngc⟩ := hnl
      simp only [Forest.closeRemovedProtected, List.mem_append]
      intro h
      rcases List.mem_cons.mp hr with h1 | h2
      · subst h1
        rcases h with h3 | h4
        · exact hgi (Forest.closeRemoved_subset gc r h3)
        · exact hdisj (List.mem_cons_self r gc.idList)
            (Forest.closeRemovedProtected_subset rest r h4)
      · have hr_rest : r ∈ rest.idList := Forest.rootIdsF_subset rest r h2
        rcases h with h3 | h4
        · exact hdisj (List.mem_cons_of_mem gi (Forest.closeRemoved_subset gc r h3)) hr_rest
        · exact Forest.rootIds_not_mem_protected rest hnr r h2 h4

mutual
/-- In one `merge_close_nodes` scan of the children of an unmerged node, a
removed node's children are never removed in the same pass: a merged node's
children enter `cant_be_removed` when their parent is merged. -/
theorem Forest.closeRemoved_child_safe : ∀ (f : Forest), f.idList.Nodup →
    ∀ p c, (p, c) ∈ f.treePairs → p ∈ f.closeRemoved → c ∉ f.closeRemoved
  | .nil, _, p, c, hpair, _ => by simp [Forest.treePairs] at hpair
  | .cons e (.node ci cd cc) rest, hn, p, c, hpair, hp => by
      have hn2 : ((ci :: cc.idList) ++ rest.idList).Nodup := by
        simpa [Forest.idList, NTree.idList] using hn
      rw [List.nodup_append] at hn2
      obtain ⟨hnl, hnr, hdisj⟩ := hn2
      rw [List.nodup_cons] at hnl
      obtain ⟨hci, hncc⟩ := hnl
      have dci_rest : ci ∉ rest.idList :=
        fun h => hdisj (List.mem_cons_self ci cc.idList) h
      have dcc_rest : ∀ x, x ∈ cc.idList → x ∉ rest.idList :=
        fun x hx h => hdisj (List.mem_cons_of_mem ci hx) h
      simp only [Forest.treePairs, NTree.childPairs, List.mem_append] at hpair
      rcases hpair with hpl | hpr
      · rcases (Forest.mem_pairsUnder ci cc).mp hpl with ⟨hpq, hcr⟩ | htp
        · subst hpq
          have hc_cc : c ∈ cc.idList := Forest.rootIdsF_subset cc c hcr
          by_cases hg : (p ≠ "0" ∧ closeGuard e)
          · simp only [Forest.closeRemoved, if_pos hg, List.mem_cons, List.mem_append]
            intro hcm
            rcases hcm with hc1 | hc2 | hc3
            · exact hci (hc1 ▸ hc_cc)
            · exact Forest.rootIds_not_mem_protected cc hncc c hcr hc2
            · exact dcc_rest c hc_cc (Forest.closeRemoved_subset rest c hc3)
          · simp only [Forest.closeRemoved, if_neg hg, List.mem_append] at hp
            rcases hp with h5 | h6
            · exact absurd (Forest.closeRemoved_subset cc p h5) hci
            · exact absurd (Forest.closeRemoved_subset rest p h6) dci_rest
        · obtain ⟨hp_cc, hc_cc⟩ := Forest.mem_treePairs_ids cc p c htp
          by_cases hg : (ci ≠ "0" ∧ closeGuard e)
          · simp only [Forest.closeRemoved, if_pos hg, List.mem_cons,
              List.mem_append] at hp ⊢
            have hp_prot : p ∈ cc.closeRemovedProtected := by
              rcases hp with h1 | h2 | h3
              · exact absurd (h1 ▸ hp_cc) hci
              · exact h2
              · exact absurd (Forest.closeRemoved_subset rest p h3) (dcc_rest p hp_cc)
            intro hcm
            rcases hcm with hc1 | hc2 | hc3
            · exact hci (hc1 ▸ hc_cc)
            · exact Forest.closeRemovedProtected_child_safe cc hncc p c htp hp_prot hc2
            · exact dcc_rest c hc_cc (Forest.closeRemoved_subset rest c hc3)
          · simp only [Forest.closeRemoved, if_neg hg, List.mem_append] at hp ⊢
            have hp_rm : p ∈ cc.closeRemoved := by
              rcases hp with h1 | h2
              · exact h1
              · exact absurd (Forest.closeRemoved_subset rest p h2) (dcc_rest p hp_cc)
            intro hcm
            rcases hcm with hc1 | hc2
            · exact Forest.closeRemoved_child_safe cc hncc p c htp hp_rm hc1
            · exact dcc_rest c hc_cc (Forest.closeRemoved_subset rest c hc2)
      · obtain ⟨hp_r, hc_r⟩ := Forest.mem_treePairs_ids rest p c hpr
        by_cases hg : (ci ≠ "0" ∧ closeGuard e)
        · simp only [Forest.closeRemoved, if_pos hg, List.mem_cons,
            List.mem_append] at hp ⊢
          have hp_rm : p ∈ rest.closeRemoved := by
            rcases hp with h1 | h2 | h3
            · exact absurd (h1 ▸ hp_r) dci_rest
            · exact absurd hp_r (dcc_rest p (Forest.closeRemovedProtected_subset cc p h2))
            · exact h3
          intro hcm
          rcases hcm with hc1 | hc2 | hc3
          · exact dci_rest (hc1 ▸ hc_r)
          · exact dcc_rest c (Forest.closeRemovedProtected_subset cc c hc2) hc_r
          · exact Forest.closeRemoved_child_safe rest hnr p c hpr hp_rm hc3
        · simp only [Forest.closeRemoved, if_neg hg, List.mem_append] at hp ⊢
          have hp_rm : p ∈ rest.closeRemoved := by
            rcases hp with h1 | h2
            · exact absurd hp_r (dcc_rest p (Forest.closeRemoved_subset cc p h1))
            · exact h2
          intro hcm
          rcases hcm with hc1 | hc2
          · exact dcc_rest c (Forest.closeRemoved_subset cc c hc1) hc_r
          · exact Forest.closeRemoved_child_safe rest hnr p c hpr hp_rm hc2
/-- The protected variant of `Forest.closeRemoved_child_safe`, for the
pulled-up children of a merged node. -/
theorem Forest.closeRemovedProtected_child_safe : ∀ (f : Forest), f.idList.Nodup →
    ∀ p c, (p, c) ∈ f.treePairs →
      p ∈ f.closeRemovedProtected → c ∉ f.closeRemovedProtected
  | .nil, _, p, c, hpair, _ => by simp [Forest.treePairs] at hpair
  | .cons e2 (.node gi gd gc) rest, hn, p, c, hpair, hp => by
      have hn2 : ((gi :: gc.idList) ++ rest.idList).Nodup := by
        simpa [Forest.idList, NTree.idList] using hn
      rw [List.nodup_append] at hn2
      obtain ⟨hnl, hnr, hdisj⟩ := hn2
      rw [List.nodup_cons] at hnl
      obtain ⟨hgi, hngc⟩ := hnl
      have dgi_rest : gi ∉ rest.idList :=
        fun h => hdisj (List.mem_cons_self gi gc.idList) h
      have dgc_rest : ∀ x, x ∈ gc.idList → x ∉ rest.idList :=
        fun x hx h => hdisj (List.mem_cons_of_mem gi hx) h
      simp only [Forest.treePairs, NTree.childPairs, List.mem_append] at hpair
      simp only [Forest.closeRemovedProtected, List.mem_append] at hp ⊢
      rcases hpair with hpl | hpr
      · rcases (Forest.mem_pairsUnder gi gc).mp hpl with ⟨hpq, hcr⟩ | htp
        · subst hpq
          rcases hp with h1 | h2
          · exact absurd (Forest.closeRemoved_subset gc p h1) hgi
          · exact absurd (Forest.closeRemovedProtected_subset rest p h2) dgi_rest
        · obtain ⟨hp_gc, hc_gc⟩ := Forest.mem_treePairs_ids gc p c htp
          have hp_rm : p ∈ gc.closeRemoved := by
            rcases hp with h1 | h2
            · exact h1
            · exact absurd (Forest.closeRemovedProtected_subset rest p h2)
                (dgc_rest p hp_gc)
          intro hcm
          rcases hcm with hc1 | hc2
          · exact Forest.closeRemoved_child_safe gc hngc p c htp hp_rm hc1
          · exact dgc_rest c hc_gc (Forest.closeRemovedProtected_subset rest c hc2)
      · obtain ⟨hp_r, hc_r⟩ := Forest.mem_treePairs_ids rest p c hpr
        have hp_pr : p ∈ rest.closeRemovedProtected := by
          rcases hp with h1 | h2
          · exact absurd hp_r (dgc_rest p (Forest.closeRemoved_subset gc p h1))
          · exact h2
        intro hcm
        rcases hcm with hc1 | hc2
        · exact dgc_rest c (Forest.closeRemoved_subset gc c hc1) hc_r
        · exact Forest.closeRemovedProtected_child_safe rest hnr p c hpr hp_pr hc2
end

/-- C9: a single `merge_close_nodes` pass never removes the root `"0"`, and
never removes a node whose parent it removes in the same pass — a node
re-attached by a merge is protected until a later cycle of the fixed-point
loop. -/
theorem claimC9_mergeProtection (t : NTree) (hn : t.idList.Nodup)
    (hr : t.rootId = "0") :
    t.rootId ∉ t.closeRemoved ∧
      ∀ p c, (p, c) ∈ t.childPairs → p ∈ t.closeRemoved →
        c ∉ t.closeRemoved := by
  cases t with
  | node i d cT =>
    have hz : "0" ∉ Forest.closeRemoved cT := Forest.zero_not_mem_closeRemoved cT
    simp only [NTree.rootId] at hr
    subst hr
    refine ⟨by simpa [NTree.closeRemoved, NTree.rootChildren] using hz, ?_⟩
    intro p c hpair hp
    simp only [NTree.closeRemoved, NTree.rootChildren] at hp ⊢
    simp only [NTree.childPairs] at hpair
    rcases (Forest.mem_pairsUnder "0" cT).mp hpair with ⟨hpq, _⟩ | htp
    · exact absurd (hpq ▸ hp) hz
    · have hn2 : cT.idList.Nodup := by
        simp only [NTree.idList] at hn
        exact (List.nodup_cons.mp hn).2
      exact Forest.closeRemoved_child_safe cT hn2 p c htp hp

/-- C9 applied at a concrete tree. -/
theorem claimC9_mergeProtection_witness :
    adjacentTree.rootId ∉ adjacentTree.closeRemoved ∧
      ∀ p c, (p, c) ∈ adjacentTree.childPairs → p ∈ adjacentTree.closeRemoved →
        c ∉ adjacentTree.closeRemoved :=
  claimC9_mergeProtection adjacentTree (by decide) (by decide)

end Airway
